import Mathlib

set_option maxHeartbeats 1000000

/-!
Verification of the exoTM runtime core: epoch managers (`epochs.h`), the
step RAII wrappers (`RStep`/`WStep`), and the `slist_omap` ordered map.
Shared state manipulated by atomic operations is modelled by explicit state
passing; spin-waits are modelled by the sequence of values each read of the
shared location observes; `std::terminate()` and non-returning spins are
modelled as `none`.
-/

/-- Idle sentinel of the epoch table: slots hold `uintptr_t` values and are
cleared to `(uintptr_t)-1`, i.e. `2^64 - 1` on the 64-bit targets. -/
def IDLE : Nat := 2 ^ 64 - 1

/-- Modelled from the spec: `exotm_t::END_OF_TIME` (the exoTM implementation is
not among the sources; only its interface is used by `CCSTMEpochManager` and
the steps).  It is the sentinel returned by a check of a locked orec and the
`start_time` value of a thread that is not in a transaction; the maximal
64-bit value. -/
def END_OF_TIME : Nat := 2 ^ 64 - 1

/-- `BasicEpochManager::BasicEpochManager(Globals&)`: reads and post-increments
`g.idGenerator.val` into `id`, then calls `std::terminate()` when
`id >= MAXTHREADS`.  Returns the assigned id together with the new generator
value, or `none` when the process terminates. -/
def mkBasicEpochManager (MAXTHREADS gen : Nat) : Option (Nat × Nat) :=
  let id := gen
  if MAXTHREADS ≤ id then none else some (id, gen + 1)

/-- Construct `n` `BasicEpochManager`s in sequence, starting from generator
value `gen`, collecting the assigned ids in order; `none` as soon as one
construction terminates the process. -/
def mkThreads (MAXTHREADS : Nat) : Nat → Nat → Option (List Nat)
  | 0, _ => some []
  | Nat.succ n, gen =>
    match mkBasicEpochManager MAXTHREADS gen with
    | none => none
    | some (id, g2) => (mkThreads MAXTHREADS n g2).map (fun l => id :: l)

/-- One spin-wait `while (slot < time);`.  `obs` is the sequence of values the
successive reads of the slot observe; the result is the first observation
that exits the loop, or `none` when every observed value keeps the loop
spinning (the wait never returns). -/
def spinGe (time : Nat) : List Nat → Option Nat
  | [] => none
  | v :: rest => if v < time then spinGe time rest else some v

/-- `IrrevocQuiesceEpochManager::quiesce(g, time)` body: iterate `i` over the
slots listed in `idxs` (the code uses `0 .. count-1` with
`count = g.idGenerator.val`), skip `i == this->id`, and spin on slot `i`
until a value `>= time` is observed.  `obs i` is the sequence of values the
reads of slot `i` observe.  Returns the final (loop-exiting) observation for
every slot that was waited on. -/
def quiesceLoop (time self : Nat) (obs : Nat → List Nat) :
    List Nat → Option (List (Nat × Nat))
  | [] => some []
  | i :: rest =>
    if i = self then quiesceLoop time self obs rest
    else
      match spinGe time (obs i) with
      | none => none
      | some v => (quiesceLoop time self obs rest).map (fun l => (i, v) :: l)

/-- `IrrevocQuiesceEpochManager::quiesce(g, time)` for a caller with id `self`
when `count` threads are registered. -/
def quiesce (count self time : Nat) (obs : Nat → List Nat) :
    Option (List (Nat × Nat)) :=
  quiesceLoop time self obs (List.range count)

/-- A thread record on the `CCSTMEpochManager` `all_threads` list: its identity
and the sequence of values successive reads of its `exo.get_start_time()`
observe. -/
structure CCThread where
  tid : Nat
  startObs : List Nat
deriving DecidableEq

/-- `CCSTMEpochManager::quiesce` traversal of the `all_threads` list: skip the
caller (`curr != me`), spin on every other record until its start time is
observed `>= time`. -/
def ccQuiesceLoop (time meId : Nat) : List CCThread → Option (List (Nat × Nat))
  | [] => some []
  | t :: rest =>
    if t.tid = meId then ccQuiesceLoop time meId rest
    else
      match spinGe time t.startObs with
      | none => none
      | some v => (ccQuiesceLoop time meId rest).map (fun l => (t.tid, v) :: l)

/-- `CCSTMEpochManager::quiesce(time, me, globals)`: returns immediately when
the `QUIESCE` template flag is false, otherwise walks the thread list. -/
def ccQuiesce (QUIESCE : Bool) (time meId : Nat) (threads : List CCThread) :
    Option (List (Nat × Nat)) :=
  if QUIESCE then ccQuiesceLoop time meId threads else some []

/-- Shared state of `IrrevocQuiesceEpochManager`: the `Globals` token and epoch
table, plus every thread's private `hasToken` flag (indexed by thread id). -/
structure IQState where
  token : Nat
  epochs : List Nat
  hasToken : List Bool
deriving DecidableEq

/-- Initial state for `n` registered threads: token clear, all epoch slots
`-1`, no thread irrevocable. -/
def IQinit (n : Nat) : IQState :=
  ⟨0, List.replicate n IDLE, List.replicate n false⟩

/-- The wait loop of `IrrevocQuiesceEpochManager::tryIrrevoc`: true when every
registered slot other than `id` currently equals `(uintptr_t)-1`, so that
each `while (g.epochs[i].val != (uintptr_t)-1);` exits at once. -/
def othersIdle (epochs : List Nat) (id : Nat) : Bool :=
  (List.range epochs.length).all fun i => i == id || epochs.getD i 0 == IDLE

/-- `IrrevocQuiesceEpochManager::tryIrrevoc(g)` as an atomic-step transition:
immediate success when `hasToken` is already set; `false` without any state
change when the token is observed held (or, equivalently here, the CAS from
0 fails); otherwise the CAS installs the token, the caller waits for every
other registered slot to be idle (a wait that never finishes is `none`),
marks itself irrevocable and returns `true`. -/
def tryIrrevoc (s : IQState) (id : Nat) : Option (Bool × IQState) :=
  if s.hasToken.getD id false then some (true, s)
  else if s.token = 0 then
    (if othersIdle s.epochs id then
       some (true, ⟨1, s.epochs, s.hasToken.set id true⟩)
     else none)
  else some (false, s)

/-- `IrrevocQuiesceEpochManager::onCommitIrrevoc(g)`: clear the caller's epoch
slot, release the token, clear `hasToken`. -/
def onCommitIrrevoc (s : IQState) (id : Nat) : IQState :=
  ⟨0, s.epochs.set id IDLE, s.hasToken.set id false⟩

/-- `IrrevocQuiesceEpochManager::existIrrevoc(g)`: `return g.token.val;`. -/
def existIrrevoc (s : IQState) : Bool := s.token != 0

/-- A call of the irrevocability interface by thread `id`. -/
inductive IQOp where
  | tryI : Nat → IQOp
  | commitI : Nat → IQOp
deriving DecidableEq

/-- Run a sequence of irrevocability calls from the given state; `none` when a
`tryIrrevoc` blocks forever in its wait loop. -/
def IQrun : IQState → List IQOp → Option IQState
  | s, [] => some s
  | s, IQOp.tryI id :: rest =>
    match tryIrrevoc s id with
    | none => none
    | some (_, s2) => IQrun s2 rest
  | s, IQOp.commitI id :: rest => IQrun (onCommitIrrevoc s id) rest

/-- Well-formed use of the interface by `n` registered threads: every call is
made by a registered thread, no `tryIrrevoc` blocks, and `onCommitIrrevoc`
is only called by the thread currently holding the token (the protocol the
code documents: commit-irrevoc follows a successful `tryIrrevoc`). -/
def legalOps (n : Nat) : IQState → List IQOp → Bool
  | _, [] => true
  | s, IQOp.tryI id :: rest =>
    decide (id < n) &&
      (match tryIrrevoc s id with
       | none => false
       | some (_, s2) => legalOps n s2 rest)
  | s, IQOp.commitI id :: rest =>
    decide (id < n) && s.hasToken.getD id false &&
      legalOps n (onCommitIrrevoc s id) rest

/-- Per-thread state of `CCSTMEpochManager` coordination: the token, each
listed thread's current `exo.get_start_time()`, and each thread's private
`hasToken` flag, in `all_threads` list order. -/
structure CCState where
  token : Nat
  starts : List Nat
  hasTok : List Bool
deriving DecidableEq

/-- The wait loop of `CCSTMEpochManager::tryIrrevoc`: true when every listed
thread other than `me` currently has `get_start_time() == END_OF_TIME`. -/
def ccOthersIdle (starts : List Nat) (me : Nat) : Bool :=
  (List.range starts.length).all fun i => i == me || starts.getD i 0 == END_OF_TIME

/-- `CCSTMEpochManager::tryIrrevoc(g, me)` as an atomic-step transition,
mirroring `tryIrrevoc` of the array-based manager but waiting on the thread
list's start times. -/
def ccTryIrrevoc (s : CCState) (me : Nat) : Option (Bool × CCState) :=
  if s.hasTok.getD me false then some (true, s)
  else if s.token = 0 then
    (if ccOthersIdle s.starts me then
       some (true, ⟨1, s.starts, s.hasTok.set me true⟩)
     else none)
  else some (false, s)

/-- Events of one `IrrevocQuiesceEpochManager::onBegin(g, time)` execution:
`pub` is `setEpoch(g, time)`, `clr` is `clearEpoch(g)`, `rdO b` is the read
of `g.token.val` in the `if` after publishing, `rdI b` is a read of
`g.token.val` in the inner `while (g.token.val);` spin. -/
inductive BeginEv where
  | pub : BeginEv
  | clr : BeginEv
  | rdO : Bool → BeginEv
  | rdI : Bool → BeginEv
deriving DecidableEq

/-- The control flow of `onBegin` after the first `setEpoch`, driven by the
sequence `obs` of values the successive reads of `g.token.val` observe
(`true` = token held).  `outer = true` means the thread just published and
is at the `if (!g.token.val)` check; `outer = false` means it is inside the
inner spin.  `none` when the observations run out before the call returns
(the call is still blocked). -/
def onBeginSpin : Bool → List Bool → Option (List BeginEv)
  | _, [] => none
  | true, b :: rest =>
    if b then (onBeginSpin false rest).map
      (fun tr => BeginEv.rdO true :: BeginEv.clr :: tr)
    else some [BeginEv.rdO false]
  | false, b :: rest =>
    if b then (onBeginSpin false rest).map (fun tr => BeginEv.rdI true :: tr)
    else (onBeginSpin true rest).map
      (fun tr => BeginEv.rdI false :: BeginEv.pub :: tr)

/-- `IrrevocQuiesceEpochManager::onBegin(g, time)`: publish, then run the
token-checking loop. -/
def onBeginRun (obs : List Bool) : Option (List BeginEv) :=
  (onBeginSpin true obs).map (fun tr => BeginEv.pub :: tr)

/-- The caller's epoch slot after a prefix of `onBegin` events, starting from
slot value `s`: `pub` writes `time`, `clr` writes the idle sentinel. -/
def slotAfter (time : Nat) : List BeginEv → Nat → Nat
  | [], s => s
  | BeginEv.pub :: tr, _ => slotAfter time tr time
  | BeginEv.clr :: tr, _ => slotAfter time tr IDLE
  | BeginEv.rdO _ :: tr, s => slotAfter time tr s
  | BeginEv.rdI _ :: tr, s => slotAfter time tr s

/-- The epoch-table operations a manager variant implements. -/
structure EMOps where
  setE : List Nat → Nat → Nat → List Nat
  clearE : List Nat → Nat → List Nat

/-- `IrrevocQuiesceEpochManager`: `setEpoch` stores `time` in the caller's
slot, `clearEpoch` stores `-1`. -/
def iqOps : EMOps :=
  ⟨fun e id time => e.set id time, fun e id => e.set id IDLE⟩

/-- `BasicEpochManager`: `setEpoch`, `clearEpoch` and `onBegin` are no-ops. -/
def basicOps : EMOps :=
  ⟨fun e _ _ => e, fun e _ => e⟩

/-- A step-lifecycle event of one thread: `begin id time` is the thread
entering a step (its variant's `onBegin`/`setEpoch` completing), `finish id`
is the thread ending its step (`clearEpoch`). -/
inductive StepEv where
  | begin : Nat → Nat → StepEv
  | finish : Nat → StepEv
deriving DecidableEq

/-- The epoch table of a manager variant together with which threads currently
hold a live step. -/
structure LifeState where
  epochs : List Nat
  live : List Bool
deriving DecidableEq

/-- All slots idle, no live steps. -/
def lifeInit (n : Nat) : LifeState :=
  ⟨List.replicate n IDLE, List.replicate n false⟩

/-- Apply one lifecycle event through the variant's epoch-table operations. -/
def lifeStep (ops : EMOps) (s : LifeState) : StepEv → LifeState
  | StepEv.begin id time => ⟨ops.setE s.epochs id time, s.live.set id true⟩
  | StepEv.finish id => ⟨ops.clearE s.epochs id, s.live.set id false⟩

/-- Run a sequence of lifecycle events. -/
def lifeRun (ops : EMOps) : LifeState → List StepEv → LifeState
  | s, [] => s
  | s, e :: es => lifeRun ops (lifeStep ops s e) es

/-- Well-formed lifecycle traces of `n` registered threads: steps are not
nested (a thread begins only while not live, ends only while live), ids are
registered, and begin times are never the idle sentinel (they come from a
monotonic clock). -/
def legalEvs (n : Nat) : List Bool → List StepEv → Bool
  | _, [] => true
  | lv, StepEv.begin id time :: es =>
    decide (id < n) && !(lv.getD id false) && decide (time ≠ IDLE) &&
      legalEvs n (lv.set id true) es
  | lv, StepEv.finish id :: es =>
    decide (id < n) && lv.getD id false && legalEvs n (lv.set id false) es

/-- Revert each acquired orec to its recorded pre-acquisition version. -/
def revertAll (orecs : List Nat) : List (Nat × Nat) → List Nat
  | [] => orecs
  | (i, pv) :: rest => revertAll (orecs.set i pv) rest

/-- Modelled from the spec: the exoTM per-thread transactional state that
`WStep::unwind` (which forwards to `exo.unwind()`; `exotm_t` is not among
the sources) operates on — the global orec version table, the list of orecs
this step has acquired with their pre-acquisition versions, and the
thread's epoch-table publication. -/
structure ExoState where
  orecs : List Nat
  acquired : List (Nat × Nat)
  slot : Nat
deriving DecidableEq

/-- Modelled from the spec: `unwind()` "releases every orec the step acquired,
reverting each to its pre-acquisition version (no visible change), and
clears the thread's epoch-table publication". -/
def unwind (s : ExoState) : ExoState :=
  ⟨revertAll s.orecs s.acquired, [], IDLE⟩

/-- The member operations the `RStep` RAII type exposes (the `Step` base plus
`RStep` itself): checks, the start-time accessor, and the begin/end calls
made by its constructor and destructor. -/
def rstepMembers : List String :=
  ["check_continuation", "check_orec", "get_start_time", "ro_begin", "ro_end"]

/-- The member operations the `WStep` RAII type exposes (the `Step` base plus
`WStep` itself). -/
def wstepMembers : List String :=
  ["check_continuation", "check_orec", "get_start_time", "wo_begin", "wo_end",
   "acquire_continuation", "acquire_consistent", "acquire_aggressive",
   "unwind", "reclaim"]

/-- Position of the tail sentinel of an `slist_omap` whose data nodes hold the
key/value pairs `mem` in list order: position `0` is the `head` sentinel,
positions `1 .. mem.length` are the data nodes, `mem.length + 1` is
`tail`. -/
def tailPos (mem : List (Nat × Nat)) : Nat := mem.length + 1

/-- The key of the data node at position `p` (meaningful for
`1 ≤ p ≤ mem.length`). -/
def keyAt (mem : List (Nat × Nat)) (p : Nat) : Nat :=
  (mem.getD (p - 1) (0, 0)).1

/-- The stopping test of the traversal, `lt_mode ? dn->key >= key : dn->key >
key`: the key `k` of the next node is already beyond the search key. -/
def tooBig (lt : Bool) (key k : Nat) : Bool :=
  if lt then decide (key ≤ k) else decide (key < k)

/-- Result of a completed `get_leq` read step: the returned node position and
orec version, and the list of `(node, version)` pairs successfully
validated (by `check_orec` or `check_continuation`) during this step, in
order. -/
structure LeqRes where
  pos : Nat
  ver : Nat
  checks : List (Nat × Nat)
deriving DecidableEq

/-- The inner traversal loop of `slist_omap::get_leq` (one `RSTEP`), driven by
the orec oracle `ck` (`ck p = none` models `check_orec` returning
`END_OF_TIME` on a locked orec, `ck p = some v` a successful check
observing version `v`).  `avoid` is the `AVOID_OREC_CHECKS` template flag,
`lt` the `lt_mode` argument, `cnt` the `nodes_until_snapshot` countdown and
`freq` the (positive) `SNAPSHOT_FREQUENCY`.  Any `break` out of the loop —
a failed consistency check — restarts the whole traversal and is modelled
as `none`, as is fuel exhaustion (which cannot occur from a start position
within the list, see `getLeqAttempt`). -/
def getLeqLoop (mem : List (Nat × Nat)) (ck : Nat → Option Nat) (avoid lt : Bool)
    (key freq : Nat) :
    Nat → Nat → Nat → Nat → List (Nat × Nat) → Option LeqRes
  | 0, _, _, _, _ => none
  | fuel + 1, curr, currVer, cnt, checks =>
    let next := curr + 1
    if avoid then
      -- AVOID_OREC_CHECKS: no orec check when reading `next`
      if next = tailPos mem then
        match ck curr with
        | none => none
        | some cv => some ⟨curr, cv, checks ++ [(curr, cv)]⟩
      else if tooBig lt key (keyAt mem next) then
        match ck curr with
        | none => none
        | some cv => some ⟨curr, cv, checks ++ [(curr, cv)]⟩
      else if keyAt mem next = key then
        match ck next with
        | none => none
        | some nv => some ⟨next, nv, checks ++ [(next, nv)]⟩
      else if cnt - 1 = 0 then
        -- snapshot point: a failed check stores END_OF_TIME in curr._ver and
        -- skips the push; either way traversal continues at `next`
        match ck curr with
        | none => getLeqLoop mem ck avoid lt key freq fuel next END_OF_TIME freq checks
        | some cv => getLeqLoop mem ck avoid lt key freq fuel next cv freq checks
      else getLeqLoop mem ck avoid lt key freq fuel next currVer (cnt - 1) checks
    else
      -- checking configuration: validate next's orec at the top of the loop
      match ck next with
      | none => none
      | some nv =>
        if next = tailPos mem then
          some ⟨curr, currVer, checks ++ [(next, nv)]⟩
        else if tooBig lt key (keyAt mem next) then
          some ⟨curr, currVer, checks ++ [(next, nv)]⟩
        else if keyAt mem next = key then
          some ⟨next, nv, checks ++ [(next, nv)]⟩
        else if cnt - 1 = 0 then
          getLeqLoop mem ck avoid lt key freq fuel next nv freq (checks ++ [(next, nv)])
        else getLeqLoop mem ck avoid lt key freq fuel next nv (cnt - 1) (checks ++ [(next, nv)])

/-- One attempt of `slist_omap::get_leq` (one iteration of its outer retry
loop): start from the head sentinel when the snapshot stack is empty
(`startp = 0`), otherwise from the snapshot `(startp, startv)`; validate
the start point (`check_orec` on head, `check_continuation` on a
snapshot), then run the traversal loop.  `none` models `continue` — the
attempt failed and the outer loop retries. -/
def getLeqAttempt (mem : List (Nat × Nat)) (ck : Nat → Option Nat)
    (avoid lt : Bool) (key freq startp startv : Nat) : Option LeqRes :=
  if startp = 0 then
    match ck 0 with
    | none => none
    | some hv => getLeqLoop mem ck avoid lt key freq (mem.length + 2) 0 hv freq [(0, hv)]
  else if ck startp = some startv then
    getLeqLoop mem ck avoid lt key freq (mem.length + 2) startp startv freq
      [(startp, startv)]
  else none

/-- Outcome of one iteration of the retry loop of `slist_omap::insert`. -/
inductive InsOut where
  | retry : InsOut
  | done : Bool → List (Nat × Nat) → InsOut
deriving DecidableEq

/-- One iteration of `slist_omap::insert(me, key, val)`: run `get_leq`; if it
found a node with an equal key, return `false` with the list unchanged;
otherwise open a `WSTEP`, `acquire_continuation` the found node (the oracle
`acq` says whether the acquisition succeeds; on failure the step unwinds
and the iteration retries) and stitch a single new `(key, val)` node in
right after it. -/
def insertStep (mem : List (Nat × Nat)) (ck : Nat → Option Nat)
    (acq : Nat → Nat → Bool) (avoid : Bool) (key val freq startp startv : Nat) :
    InsOut :=
  match getLeqAttempt mem ck avoid false key freq startp startv with
  | none => InsOut.retry
  | some n =>
    if n.pos ≠ 0 ∧ keyAt mem n.pos = key then InsOut.done false mem
    else if acq n.pos n.ver then
      InsOut.done true (mem.take n.pos ++ [(key, val)] ++ mem.drop n.pos)
    else InsOut.retry

/-! Helper lemmas about lists. -/

theorem getD_set_self {α : Type} (l : List α) (i : Nat) (v d : α)
    (h : i < l.length) : (l.set i v).getD i d = v := by
  induction l generalizing i with
  | nil => simp at h
  | cons a t ih =>
    cases i with
    | zero => rfl
    | succ m => simpa using ih m (by simpa using h)

theorem getD_set_ne {α : Type} (l : List α) (i j : Nat) (v d : α)
    (h : i ≠ j) : (l.set i v).getD j d = l.getD j d := by
  induction l generalizing i j with
  | nil => rfl
  | cons a t ih =>
    cases i with
    | zero => cases j with
      | zero => exact absurd rfl h
      | succ m => rfl
    | succ m => cases j with
      | zero => rfl
      | succ k => simpa using ih m k (by omega)

theorem getD_replicate {α : Type} (n i : Nat) (v d : α) (h : i < n) :
    (List.replicate n v).getD i d = v := by
  induction n generalizing i with
  | zero => omega
  | succ m ih =>
    cases i with
    | zero => rfl
    | succ k =>
      rw [List.replicate_succ]
      simpa using ih k (by omega)

theorem count_true_pos_of_getD (l : List Bool) (i : Nat)
    (h : l.getD i false = true) : 1 ≤ l.count true := by
  induction l generalizing i with
  | nil => simp [List.getD] at h
  | cons a t ih =>
    cases i with
    | zero =>
      simp only [List.getD_cons_zero] at h
      simp [List.count_cons, h]
    | succ m =>
      have := ih m (by simpa using h)
      simp only [List.count_cons]
      omega

theorem count_true_set_true (l : List Bool) (i : Nat) (h : i < l.length)
    (hf : l.getD i false = false) :
    (l.set i true).count true = l.count true + 1 := by
  induction l generalizing i with
  | nil => simp at h
  | cons a t ih =>
    cases i with
    | zero =>
      simp only [List.getD_cons_zero] at hf
      simp [List.set, List.count_cons, hf]
    | succ m =>
      have := ih m (by simpa using h) (by simpa using hf)
      simp only [List.set, List.count_cons, this]
      omega

theorem count_true_set_false (l : List Bool) (i : Nat)
    (h : l.getD i false = true) :
    (l.set i false).count true + 1 = l.count true := by
  induction l generalizing i with
  | nil => simp [List.getD] at h
  | cons a t ih =>
    cases i with
    | zero =>
      simp only [List.getD_cons_zero] at h
      simp [List.set, List.count_cons, h]
    | succ m =>
      have := ih m (by simpa using h)
      simp only [List.set, List.count_cons]
      omega

theorem two_le_count_true (l : List Bool) (i j : Nat) (hij : i ≠ j)
    (hi : l.getD i false = true) (hj : l.getD j false = true) :
    2 ≤ l.count true := by
  induction l generalizing i j with
  | nil => simp [List.getD] at hi
  | cons a t ih =>
    cases i with
    | zero =>
      cases j with
      | zero => exact absurd rfl hij
      | succ m =>
        simp only [List.getD_cons_zero] at hi
        have h1 := count_true_pos_of_getD t m (by simpa using hj)
        simp only [List.count_cons, hi, beq_self_eq_true, if_true]
        omega
    | succ m =>
      cases j with
      | zero =>
        simp only [List.getD_cons_zero] at hj
        have h1 := count_true_pos_of_getD t m (by simpa using hi)
        simp only [List.count_cons, hj, beq_self_eq_true, if_true]
        omega
      | succ k =>
        have := ih m k (by omega) (by simpa using hi) (by simpa using hj)
        simp only [List.count_cons]
        omega

theorem count_true_replicate_false (n : Nat) :
    (List.replicate n false).count true = 0 := by
  induction n with
  | zero => rfl
  | succ m ih => simp [List.replicate, List.count_cons, ih]

/-! Thread-id assignment (claim C6). -/

theorem mkThreads_eq (M : Nat) : ∀ (n g : Nat),
    mkThreads M n g =
      (if n = 0 ∨ g + n ≤ M then some (List.range' g n) else none) := by
  intro n
  induction n with
  | zero => intro g; simp [mkThreads]
  | succ m ih =>
    intro g
    simp only [mkThreads, mkBasicEpochManager]
    by_cases hg : M ≤ g
    · rw [if_pos hg]
      rw [if_neg]
      omega
    · rw [if_neg hg]
      show (mkThreads M m (g + 1)).map (fun l => g :: l) = _
      rw [ih (g + 1)]
      rw [List.range'_succ]
      by_cases hm : m = 0 ∨ g + 1 + m ≤ M
      · rw [if_pos hm, if_pos (by omega)]
        rfl
      · rw [if_neg hm, if_neg (by omega)]
        rfl

/-- Claim C6: thread-id assignment in the array-based epoch managers hands out
monotonically increasing ids starting from 0, one per constructed manager;
constructing a manager whose id would reach or exceed `MAXTHREADS` is fatal
(`std::terminate`, modelled as `none`), with no dynamic resizing. -/
theorem assign_id_monotone_capacity_fatal (MAXTHREADS n : Nat) :
    mkThreads MAXTHREADS n 0 =
      (if n ≤ MAXTHREADS then some (List.range n) else none) ∧
    (∀ gen, MAXTHREADS ≤ gen → mkBasicEpochManager MAXTHREADS gen = none) ∧
    (∀ gen id gen2, mkBasicEpochManager MAXTHREADS gen = some (id, gen2) →
       id = gen ∧ gen2 = gen + 1 ∧ id < MAXTHREADS) := by
  refine ⟨?_, ?_, ?_⟩
  · rw [mkThreads_eq, List.range_eq_range']
    by_cases h : n ≤ MAXTHREADS
    · rw [if_pos (by omega), if_pos h]
    · rw [if_neg (by omega), if_neg h]
  · intro gen h
    simp [mkBasicEpochManager, h]
  · intro gen id gen2 h
    simp only [mkBasicEpochManager] at h
    by_cases hg : MAXTHREADS ≤ gen
    · simp [hg] at h
    · simp [hg] at h
      exact ⟨h.1.symm, h.2.symm, by omega⟩

/-- Witness for C6: constructing with the generator already at the maximum is
fatal. -/
theorem assign_id_monotone_capacity_fatal_witness :
    mkBasicEpochManager 2 3 = none :=
  (assign_id_monotone_capacity_fatal 2 5).2.1 3 (by decide)

/-! Unwind idempotence (claim C7). -/

/-- Claim C7: calling `unwind` on a write-step a second time, after the step
has already released (reverted) every orec it acquired (its acquired list
is empty), leaves all orec versions unchanged; `unwind` is idempotent and
safe to call multiple times. -/
theorem unwind_idempotent (s : ExoState) (h : s.acquired = []) :
    (unwind s).orecs = s.orecs ∧ ∀ s2 : ExoState, unwind (unwind s2) = unwind s2 := by
  constructor
  · simp [unwind, h, revertAll]
  · intro s2
    simp [unwind, revertAll]

/-- Witness for C7: a second unwind of a step that holds nothing changes no
orec version. -/
theorem unwind_idempotent_witness :
    (unwind ⟨[5, 6], [], 3⟩).orecs = [5, 6] :=
  (unwind_idempotent ⟨[5, 6], [], 3⟩ rfl).1

/-! Reclaim is a write-step-only operation (claim C8). -/

/-- Claim C8: `reclaim` may be called only from a write-step; the read-step
type exposes no `reclaim` operation at all (calling it on a read-step is a
compile-time error, not a recoverable runtime error), while `WStep` does
expose it. -/
theorem reclaim_only_on_write_steps :
    "reclaim" ∈ wstepMembers ∧ "reclaim" ∉ rstepMembers := by
  decide

/-! Quiescence (claim C1). -/

theorem spinGe_some (time : Nat) (l : List Nat) (v : Nat)
    (h : spinGe time l = some v) : time ≤ v := by
  induction l with
  | nil => simp [spinGe] at h
  | cons a rest ih =>
    simp only [spinGe] at h
    by_cases ha : a < time
    · rw [if_pos ha] at h; exact ih h
    · rw [if_neg ha] at h
      simp only [Option.some.injEq] at h
      omega

theorem quiesceLoop_sound (time self : Nat) (obs : Nat → List Nat) :
    ∀ (idxs : List Nat) (res : List (Nat × Nat)),
      quiesceLoop time self obs idxs = some res →
      (∀ p ∈ res, p.1 ∈ idxs ∧ p.1 ≠ self ∧ time ≤ p.2) ∧
      (∀ i ∈ idxs, i ≠ self → ∃ v, (i, v) ∈ res) := by
  intro idxs
  induction idxs with
  | nil =>
    intro res h
    simp only [quiesceLoop, Option.some.injEq] at h
    subst h
    simp
  | cons i rest ih =>
    intro res h
    simp only [quiesceLoop] at h
    by_cases hi : i = self
    · rw [if_pos hi] at h
      obtain ⟨h1, h2⟩ := ih res h
      refine ⟨?_, ?_⟩
      · intro p hp
        obtain ⟨hp1, hp2, hp3⟩ := h1 p hp
        exact ⟨List.mem_cons_of_mem _ hp1, hp2, hp3⟩
      · intro j hj hjs
        rcases List.mem_cons.mp hj with rfl | hj2
        · exact absurd hi (by omega)
        · exact h2 j hj2 hjs
    · rw [if_neg hi] at h
      cases hsg : spinGe time (obs i) with
      | none => rw [hsg] at h; simp at h
      | some v =>
        rw [hsg] at h
        cases hrec : quiesceLoop time self obs rest with
        | none => rw [hrec] at h; simp at h
        | some l =>
          rw [hrec] at h
          simp only [Option.map_some', Option.some.injEq] at h
          subst h
          obtain ⟨h1, h2⟩ := ih l hrec
          refine ⟨?_, ?_⟩
          · intro p hp
            rcases List.mem_cons.mp hp with rfl | hp2
            · exact ⟨List.mem_cons_self _ _, hi, spinGe_some time (obs i) v hsg⟩
            · obtain ⟨hp1, hp2b, hp3⟩ := h1 p hp2
              exact ⟨List.mem_cons_of_mem _ hp1, hp2b, hp3⟩
          · intro j hj hjs
            rcases List.mem_cons.mp hj with rfl | hj2
            · exact ⟨v, List.mem_cons_self _ _⟩
            · obtain ⟨w, hw⟩ := h2 j hj2 hjs
              exact ⟨w, List.mem_cons_of_mem _ hw⟩

theorem quiesceLoop_self_independent (time self : Nat) (obs obs2 : Nat → List Nat)
    (hobs : ∀ j, j ≠ self → obs2 j = obs j) :
    ∀ idxs, quiesceLoop time self obs2 idxs = quiesceLoop time self obs idxs := by
  intro idxs
  induction idxs with
  | nil => rfl
  | cons i rest ih =>
    simp only [quiesceLoop]
    by_cases hi : i = self
    · rw [if_pos hi, if_pos hi, ih]
    · rw [if_neg hi, if_neg hi, hobs i hi, ih]

theorem ccQuiesceLoop_sound (time meId : Nat) :
    ∀ (ths : List CCThread) (res : List (Nat × Nat)),
      ccQuiesceLoop time meId ths = some res →
      (∀ p ∈ res, (∃ t ∈ ths, t.tid = p.1) ∧ p.1 ≠ meId ∧ time ≤ p.2) ∧
      (∀ t ∈ ths, t.tid ≠ meId → ∃ v, (t.tid, v) ∈ res) := by
  intro ths
  induction ths with
  | nil =>
    intro res h
    simp only [ccQuiesceLoop, Option.some.injEq] at h
    subst h
    simp
  | cons t rest ih =>
    intro res h
    simp only [ccQuiesceLoop] at h
    by_cases hi : t.tid = meId
    · rw [if_pos hi] at h
      obtain ⟨h1, h2⟩ := ih res h
      refine ⟨?_, ?_⟩
      · intro p hp
        obtain ⟨⟨u, hu1, hu2⟩, hp2, hp3⟩ := h1 p hp
        exact ⟨⟨u, List.mem_cons_of_mem _ hu1, hu2⟩, hp2, hp3⟩
      · intro u hu hus
        rcases List.mem_cons.mp hu with rfl | hu2
        · exact absurd hi hus
        · exact h2 u hu2 hus
    · rw [if_neg hi] at h
      cases hsg : spinGe time t.startObs with
      | none => rw [hsg] at h; simp at h
      | some v =>
        rw [hsg] at h
        cases hrec : ccQuiesceLoop time meId rest with
        | none => rw [hrec] at h; simp at h
        | some l =>
          rw [hrec] at h
          simp only [Option.map_some', Option.some.injEq] at h
          subst h
          obtain ⟨h1, h2⟩ := ih l hrec
          refine ⟨?_, ?_⟩
          · intro p hp
            rcases List.mem_cons.mp hp with rfl | hp2
            · exact ⟨⟨t, List.mem_cons_self _ _, rfl⟩, hi,
                spinGe_some time t.startObs v hsg⟩
            · obtain ⟨⟨u, hu1, hu2⟩, hp2b, hp3⟩ := h1 p hp2
              exact ⟨⟨u, List.mem_cons_of_mem _ hu1, hu2⟩, hp2b, hp3⟩
          · intro u hu hus
            rcases List.mem_cons.mp hu with rfl | hu2
            · exact ⟨v, List.mem_cons_self _ _⟩
            · obtain ⟨w, hw⟩ := h2 u hu2 hus
              exact ⟨w, List.mem_cons_of_mem _ hw⟩

/-- Claim C1: for every time value `t`, when `quiesce(t)` returns on a
quiescing epoch-manager variant (`IrrevocQuiesceEpochManager`, or
`CCSTMEpochManager` with `QUIESCE` true), every other registered thread's
published epoch slot has been observed to be either idle or `≥ t` (the
exit observation of each non-self spin loop satisfies this; note the idle
sentinel `-1` is the maximal unsigned value), and the caller's own slot is
never waited on: the result never mentions `self` and is unchanged under
arbitrary replacement of the observations of the caller's own slot. -/
theorem quiesce_observes_other_slots (count self time : Nat)
    (obs obs2 : Nat → List Nat) (res : List (Nat × Nat))
    (hq : quiesce count self time obs = some res)
    (hobs : ∀ j, j ≠ self → obs2 j = obs j) :
    (∀ p ∈ res, p.1 < count ∧ p.1 ≠ self ∧ (p.2 = IDLE ∨ time ≤ p.2)) ∧
    (∀ i, i < count → i ≠ self → ∃ v, (i, v) ∈ res) ∧
    quiesce count self time obs2 = some res ∧
    (∀ ths res2, ccQuiesce true time self ths = some res2 →
      (∀ p ∈ res2, (∃ t ∈ ths, t.tid = p.1) ∧ p.1 ≠ self ∧
        (p.2 = END_OF_TIME ∨ time ≤ p.2)) ∧
      (∀ t ∈ ths, t.tid ≠ self → ∃ v, (t.tid, v) ∈ res2)) := by
  obtain ⟨h1, h2⟩ := quiesceLoop_sound time self obs (List.range count) res hq
  refine ⟨?_, ?_, ?_, ?_⟩
  · intro p hp
    obtain ⟨hp1, hp2, hp3⟩ := h1 p hp
    exact ⟨List.mem_range.mp hp1, hp2, Or.inr hp3⟩
  · intro i hic his
    exact h2 i (List.mem_range.mpr hic) his
  · rw [quiesce, quiesceLoop_self_independent time self obs obs2 hobs]
    exact hq
  · intro ths res2 hcc
    simp only [ccQuiesce, if_true] at hcc
    obtain ⟨g1, g2⟩ := ccQuiesceLoop_sound time self ths res2 hcc
    refine ⟨?_, g2⟩
    intro p hp
    exact ⟨(g1 p hp).1, (g1 p hp).2.1, Or.inr (g1 p hp).2.2⟩

/-- Witness for C1: a two-thread run in which the caller (id 0) quiesces time
5 and thread 1 is observed at 9 after first being observed at 3. -/
theorem quiesce_observes_other_slots_witness :
    ∃ v, ((1 : Nat), v) ∈ [((1 : Nat), (9 : Nat))] :=
  (quiesce_observes_other_slots 2 0 5 (fun _ => [3, 9])
      (fun i => if i = 0 then [] else [3, 9]) [(1, 9)] rfl
      (fun j hj => by simp [hj])).2.1 1 (by decide) (by decide)

/-! Irrevocability (claims C4 and C2). -/

theorem othersIdle_iff (epochs : List Nat) (id : Nat) :
    othersIdle epochs id = true ↔
      ∀ i, i < epochs.length → i ≠ id → epochs.getD i 0 = IDLE := by
  simp only [othersIdle, List.all_eq_true, List.mem_range, Bool.or_eq_true,
    beq_iff_eq]
  constructor
  · intro h i hl hne
    rcases h i hl with h1 | h1
    · exact absurd h1 hne
    · exact h1
  · intro h i hl
    by_cases hi : i = id
    · exact Or.inl hi
    · exact Or.inr (h i hl hi)

theorem ccOthersIdle_iff (starts : List Nat) (me : Nat) :
    ccOthersIdle starts me = true ↔
      ∀ i, i < starts.length → i ≠ me → starts.getD i 0 = END_OF_TIME := by
  simp only [ccOthersIdle, List.all_eq_true, List.mem_range, Bool.or_eq_true,
    beq_iff_eq]
  constructor
  · intro h i hl hne
    rcases h i hl with h1 | h1
    · exact absurd h1 hne
    · exact h1
  · intro h i hl
    by_cases hi : i = me
    · exact Or.inl hi
    · exact Or.inr (h i hl hi)

/-- Claim C4: `tryIrrevoc` returns true immediately when the caller already
holds the token; when the token is held by another thread or the
compare-and-swap on it fails (here: the token is observed nonzero), it
returns false immediately with no side effect on the token or the caller's
state; when it wins the token it waits until every other registered
thread's epoch slot is idle (never returning while one is not), marks
itself irrevocable, and returns true — for both
`IrrevocQuiesceEpochManager` and `CCSTMEpochManager`. -/
theorem tryIrrevoc_spec (s : IQState) (id : Nat) (c : CCState) (me : Nat) :
    (s.hasToken.getD id false = true → tryIrrevoc s id = some (true, s)) ∧
    (s.hasToken.getD id false = false → s.token ≠ 0 →
       tryIrrevoc s id = some (false, s)) ∧
    (s.hasToken.getD id false = false → s.token = 0 →
       othersIdle s.epochs id = true →
       tryIrrevoc s id = some (true, ⟨1, s.epochs, s.hasToken.set id true⟩)) ∧
    (s.hasToken.getD id false = false → s.token = 0 →
       othersIdle s.epochs id = false → tryIrrevoc s id = none) ∧
    (othersIdle s.epochs id = true ↔
       ∀ i, i < s.epochs.length → i ≠ id → s.epochs.getD i 0 = IDLE) ∧
    (c.hasTok.getD me false = true → ccTryIrrevoc c me = some (true, c)) ∧
    (c.hasTok.getD me false = false → c.token ≠ 0 →
       ccTryIrrevoc c me = some (false, c)) ∧
    (c.hasTok.getD me false = false → c.token = 0 →
       ccOthersIdle c.starts me = true →
       ccTryIrrevoc c me = some (true, ⟨1, c.starts, c.hasTok.set me true⟩)) ∧
    (c.hasTok.getD me false = false → c.token = 0 →
       ccOthersIdle c.starts me = false → ccTryIrrevoc c me = none) ∧
    (ccOthersIdle c.starts me = true ↔
       ∀ i, i < c.starts.length → i ≠ me → c.starts.getD i 0 = END_OF_TIME) := by
  refine ⟨?_, ?_, ?_, ?_, othersIdle_iff s.epochs id, ?_, ?_, ?_, ?_,
    ccOthersIdle_iff c.starts me⟩
  · intro h1
    unfold tryIrrevoc
    rw [if_pos h1]
  · intro h1 h2
    unfold tryIrrevoc
    rw [if_neg (by rw [h1]; exact Bool.false_ne_true), if_neg h2]
  · intro h1 h2 h3
    unfold tryIrrevoc
    rw [if_neg (by rw [h1]; exact Bool.false_ne_true), if_pos h2, if_pos h3]
  · intro h1 h2 h3
    unfold tryIrrevoc
    rw [if_neg (by rw [h1]; exact Bool.false_ne_true), if_pos h2, if_neg (by rw [h3]; exact Bool.false_ne_true)]
  · intro h1
    unfold ccTryIrrevoc
    rw [if_pos h1]
  · intro h1 h2
    unfold ccTryIrrevoc
    rw [if_neg (by rw [h1]; exact Bool.false_ne_true), if_neg h2]
  · intro h1 h2 h3
    unfold ccTryIrrevoc
    rw [if_neg (by rw [h1]; exact Bool.false_ne_true), if_pos h2, if_pos h3]
  · intro h1 h2 h3
    unfold ccTryIrrevoc
    rw [if_neg (by rw [h1]; exact Bool.false_ne_true), if_pos h2, if_neg (by rw [h3]; exact Bool.false_ne_true)]

/-- Witness for C4: a single registered thread acquires the token at once. -/
theorem tryIrrevoc_spec_witness :
    tryIrrevoc (IQinit 1) 0 =
      some (true, ⟨1, (IQinit 1).epochs, (IQinit 1).hasToken.set 0 true⟩) :=
  (tryIrrevoc_spec (IQinit 1) 0 ⟨0, [], []⟩ 0).2.2.1 rfl rfl (by decide)

/-- Counterexample to C2 as stated: with two registered threads, the call
sequence `tryIrrevoc` by thread 0, `onCommitIrrevoc` by thread 1 (which
does not hold the token — the code does not check), `tryIrrevoc` by thread
1 reaches a state in which BOTH threads have `hasToken` true, so "at most
one thread holds the irrevocability token in every state reachable by any
sequence of tryIrrevoc and onCommitIrrevoc calls" is false. -/
theorem irrevoc_two_holders_reachable :
    (IQrun (IQinit 2) [IQOp.tryI 0, IQOp.commitI 1, IQOp.tryI 1]).map
        (fun s => s.hasToken) = some [true, true] ∧
    (IQrun (IQinit 2) [IQOp.tryI 0, IQOp.commitI 1, IQOp.tryI 1]).map
        (fun s => s.hasToken.count true) = some 2 := by
  constructor <;> rfl

theorem IQrun_inv (n : Nat) :
    ∀ (ops : List IQOp) (s s2 : IQState),
      s.hasToken.length = n →
      s.hasToken.count true ≤ 1 →
      (s.token ≠ 0 ↔ s.hasToken.count true = 1) →
      legalOps n s ops = true →
      IQrun s ops = some s2 →
      s2.hasToken.length = n ∧ s2.hasToken.count true ≤ 1 ∧
        (s2.token ≠ 0 ↔ s2.hasToken.count true = 1) := by
  intro ops
  induction ops with
  | nil =>
    intro s s2 hlen hcnt htok hleg hrun
    simp only [IQrun, Option.some.injEq] at hrun
    subst hrun
    exact ⟨hlen, hcnt, htok⟩
  | cons op rest ih =>
    intro s s2 hlen hcnt htok hleg hrun
    cases op with
    | tryI id =>
      simp only [legalOps, Bool.and_eq_true, decide_eq_true_eq] at hleg
      obtain ⟨hid, hleg2⟩ := hleg
      simp only [IQrun] at hrun
      by_cases h1 : s.hasToken.getD id false = true
      · simp only [tryIrrevoc, h1, if_true] at hrun hleg2
        exact ih s s2 hlen hcnt htok hleg2 hrun
      · replace h1 : s.hasToken.getD id false = false := by
          cases hx : s.hasToken.getD id false
          · rfl
          · exact absurd hx h1
        by_cases h2 : s.token = 0
        · by_cases h3 : othersIdle s.epochs id = true
          · simp only [tryIrrevoc, h1, h2, h3, Bool.false_eq_true, if_false,
              if_true] at hrun hleg2
            have hc0 : s.hasToken.count true = 0 := by
              by_contra hne
              have h1c : s.hasToken.count true = 1 := by omega
              exact (htok.mpr h1c) h2
            apply ih ⟨1, s.epochs, s.hasToken.set id true⟩ s2 ?_ ?_ ?_ hleg2 hrun
            · simp [List.length_set, hlen]
            · have := count_true_set_true s.hasToken id (by omega) h1
              simp only []
              omega
            · have := count_true_set_true s.hasToken id (by omega) h1
              simp only []
              constructor
              · intro _; omega
              · intro _; omega
          · replace h3 : othersIdle s.epochs id = false := by
              cases hx : othersIdle s.epochs id
              · rfl
              · exact absurd hx h3
            simp only [tryIrrevoc, h1, h2, h3, Bool.false_eq_true, if_false,
              if_true] at hleg2
        · simp only [tryIrrevoc, h1, h2, Bool.false_eq_true, if_false] at hrun hleg2
          exact ih s s2 hlen hcnt htok hleg2 hrun
    | commitI id =>
      simp only [legalOps, Bool.and_eq_true, decide_eq_true_eq] at hleg
      obtain ⟨⟨hid, hgd⟩, hleg2⟩ := hleg
      simp only [IQrun] at hrun
      have hc1 : s.hasToken.count true = 1 :=
        Nat.le_antisymm hcnt (count_true_pos_of_getD _ id hgd)
      have hstep := count_true_set_false s.hasToken id hgd
      apply ih (onCommitIrrevoc s id) s2 ?_ ?_ ?_ hleg2 hrun
      · simp [onCommitIrrevoc, List.length_set, hlen]
      · simp only [onCommitIrrevoc]
        omega
      · simp only [onCommitIrrevoc]
        constructor
        · intro h; exact absurd rfl h
        · intro h; omega

/-- Claim C2 (amended): in every state reachable by a well-formed sequence of
`tryIrrevoc` and `onCommitIrrevoc` calls from registered threads — one in
which `onCommitIrrevoc` is only called by the thread currently holding the
token, as the protocol requires — at most one thread holds the
irrevocability token (`hasToken` true); while some thread holds it,
`existIrrevoc` returns true and a `tryIrrevoc` call by any other thread
returns false.  (Unrestricted sequences violate the claim, see the
counterexample: `onCommitIrrevoc` does not check that its caller holds the
token.) -/
theorem irrevoc_mutual_exclusion (n : Nat) (ops : List IQOp) (s : IQState)
    (hleg : legalOps n (IQinit n) ops = true)
    (hrun : IQrun (IQinit n) ops = some s) :
    s.hasToken.count true ≤ 1 ∧
    (∀ h, s.hasToken.getD h false = true →
      existIrrevoc s = true ∧
      ∀ id, id ≠ h → tryIrrevoc s id = some (false, s)) := by
  have hinit1 : (IQinit n).hasToken.length = n := by simp [IQinit]
  have hinit2 : (IQinit n).hasToken.count true = 0 := by
    simp only [IQinit]
    exact count_true_replicate_false n
  obtain ⟨hlen, hcnt, htok⟩ := IQrun_inv n ops (IQinit n) s hinit1
    (by omega) (by constructor <;> (intro h; first | exact absurd rfl h | omega))
    hleg hrun
  refine ⟨hcnt, ?_⟩
  intro h hh
  have hc1 : s.hasToken.count true = 1 :=
    Nat.le_antisymm hcnt (count_true_pos_of_getD _ h hh)
  have htk : s.token ≠ 0 := htok.mpr hc1
  refine ⟨?_, ?_⟩
  · simp only [existIrrevoc, bne_iff_ne, ne_eq]
    exact htk
  · intro id hid
    have hgd : s.hasToken.getD id false = false := by
      cases hx : s.hasToken.getD id false
      · rfl
      · exact absurd (two_le_count_true s.hasToken h id (fun he => hid he.symm) hh hx)
          (by omega)
    unfold tryIrrevoc
    rw [if_neg (by rw [hgd]; exact Bool.false_ne_true), if_neg htk]

/-- Witness for C2 (amended) after the run in which thread 0 acquires the
token among two registered threads. -/
theorem irrevoc_mutual_exclusion_witness :
    existIrrevoc ⟨1, List.replicate 2 IDLE, [true, false]⟩ = true ∧
    tryIrrevoc ⟨1, List.replicate 2 IDLE, [true, false]⟩ 1 =
      some (false, ⟨1, List.replicate 2 IDLE, [true, false]⟩) := by
  have h := irrevoc_mutual_exclusion 2 [IQOp.tryI 0]
    ⟨1, List.replicate 2 IDLE, [true, false]⟩ (by decide) (by decide)
  exact ⟨(h.2 0 rfl).1, (h.2 0 rfl).2 1 (by decide)⟩

/-! Epoch-slot lifecycle (claim C5). -/

/-- Counterexample to C5 as stated: the claimed biconditional does not hold
for every epoch-manager variant.  For `BasicEpochManager`, whose
`setEpoch`/`clearEpoch`/`onBegin` are no-ops, after a legal `begin` thread
0 holds a live step while its epoch slot still equals the idle sentinel. -/
theorem basic_slot_idle_with_live_step :
    legalEvs 1 (List.replicate 1 false) [StepEv.begin 0 5] = true ∧
    (lifeRun basicOps (lifeInit 1) [StepEv.begin 0 5]).live.getD 0 false = true ∧
    (lifeRun basicOps (lifeInit 1) [StepEv.begin 0 5]).epochs.getD 0 0 = IDLE := by
  refine ⟨by decide, rfl, rfl⟩

theorem lifeRun_iq_inv (n : Nat) :
    ∀ (evs : List StepEv) (ep : List Nat) (lv : List Bool),
      ep.length = n → lv.length = n →
      (∀ id, id < n → (ep.getD id 0 = IDLE ↔ lv.getD id false = false)) →
      legalEvs n lv evs = true →
      ∀ id, id < n →
        ((lifeRun iqOps ⟨ep, lv⟩ evs).epochs.getD id 0 = IDLE ↔
          (lifeRun iqOps ⟨ep, lv⟩ evs).live.getD id false = false) := by
  intro evs
  induction evs with
  | nil =>
    intro ep lv hep hlv hinv hleg id hid
    exact hinv id hid
  | cons e rest ih =>
    intro ep lv hep hlv hinv hleg id hid
    cases e with
    | begin tid time =>
      simp only [legalEvs, Bool.and_eq_true, decide_eq_true_eq,
        Bool.not_eq_true'] at hleg
      obtain ⟨⟨⟨htid, hnl⟩, hnt⟩, hleg2⟩ := hleg
      refine ih (ep.set tid time) (lv.set tid true) ?_ ?_ ?_ hleg2 id hid
      · simp [List.length_set, hep]
      · simp [List.length_set, hlv]
      · intro j hj
        by_cases hjt : j = tid
        · subst hjt
          rw [getD_set_self ep j time 0 (by omega),
            getD_set_self lv j true false (by omega)]
          simp [hnt]
        · rw [getD_set_ne ep tid j time 0 (fun hx => hjt hx.symm),
            getD_set_ne lv tid j true false (fun hx => hjt hx.symm)]
          exact hinv j hj
    | finish tid =>
      simp only [legalEvs, Bool.and_eq_true, decide_eq_true_eq] at hleg
      obtain ⟨⟨htid, hl⟩, hleg2⟩ := hleg
      refine ih (ep.set tid IDLE) (lv.set tid false) ?_ ?_ ?_ hleg2 id hid
      · simp [List.length_set, hep]
      · simp [List.length_set, hlv]
      · intro j hj
        by_cases hjt : j = tid
        · subst hjt
          rw [getD_set_self ep j IDLE 0 (by omega),
            getD_set_self lv j false false (by omega)]
          simp
        · rw [getD_set_ne ep tid j IDLE 0 (fun hx => hjt hx.symm),
            getD_set_ne lv tid j false false (fun hx => hjt hx.symm)]
          exact hinv j hj

theorem lifeRun_basic_epochs_unchanged :
    ∀ (evs : List StepEv) (s : LifeState),
      (lifeRun basicOps s evs).epochs = s.epochs := by
  intro evs
  induction evs with
  | nil => intro s; rfl
  | cons e rest ih =>
    intro s
    cases e with
    | begin tid time => exact ih ⟨s.epochs, s.live.set tid true⟩
    | finish tid => exact ih ⟨s.epochs, s.live.set tid false⟩

/-- Claim C5 (amended): for the quiescing array-based variant
(`IrrevocQuiesceEpochManager`), over every well-formed step lifecycle, a
thread's epoch-table slot equals the idle sentinel `-1` if and only if the
thread holds no live step — `onBegin`/`setEpoch` publish the step's
(non-sentinel) begin time for the duration of the step and `clearEpoch`
restores the idle sentinel when the step ends.  The biconditional does not
extend to the `BasicEpochManager` variant, whose epoch-table operations
are no-ops: its slots stay idle forever, even while steps are live (see
the counterexample). -/
theorem iq_slot_idle_iff_no_live_step (n : Nat) (evs : List StepEv)
    (hleg : legalEvs n (List.replicate n false) evs = true) :
    (∀ id, id < n →
      ((lifeRun iqOps (lifeInit n) evs).epochs.getD id 0 = IDLE ↔
        (lifeRun iqOps (lifeInit n) evs).live.getD id false = false)) ∧
    (lifeRun basicOps (lifeInit n) evs).epochs = List.replicate n IDLE := by
  constructor
  · intro id hid
    refine lifeRun_iq_inv n evs (List.replicate n IDLE) (List.replicate n false)
      ?_ ?_ ?_ hleg id hid
    · simp
    · simp
    · intro j hj
      rw [getD_replicate n j IDLE 0 hj, getD_replicate n j false false hj]
      simp
  · exact lifeRun_basic_epochs_unchanged evs (lifeInit n)

/-- Witness for C5 (amended): after thread 0 begins a step at time 5, its slot
is not idle exactly because its step is live. -/
theorem iq_slot_idle_iff_no_live_step_witness :
    ((lifeRun iqOps (lifeInit 1) [StepEv.begin 0 5]).epochs.getD 0 0 = IDLE ↔
      (lifeRun iqOps (lifeInit 1) [StepEv.begin 0 5]).live.getD 0 false = false) :=
  (iq_slot_idle_iff_no_live_step 1 [StepEv.begin 0 5] (by decide)).1 0 (by decide)

/-! The begin-barrier (claim C3). -/

theorem slotAfter_append (t : Nat) :
    ∀ (l1 l2 : List BeginEv) (s : Nat),
      slotAfter t (l1 ++ l2) s = slotAfter t l2 (slotAfter t l1 s) := by
  intro l1
  induction l1 with
  | nil => intro l2 s; rfl
  | cons e l ih =>
    intro l2 s
    cases e <;> simp only [List.cons_append, slotAfter] <;> apply ih

theorem onBeginSpin_ends (obs : List Bool) : ∀ (mode : Bool) (tr : List BeginEv),
    onBeginSpin mode obs = some tr →
    (mode = true →
      tr = [BeginEv.rdO false] ∨
        ∃ tr0, tr = tr0 ++ [BeginEv.pub, BeginEv.rdO false]) ∧
    (mode = false → ∃ tr0, tr = tr0 ++ [BeginEv.pub, BeginEv.rdO false]) := by
  induction obs with
  | nil => intro mode tr h; simp [onBeginSpin] at h
  | cons b rest ih =>
    intro mode tr h
    cases mode with
    | true =>
      cases b with
      | true =>
        have hred : onBeginSpin true (true :: rest) =
            (onBeginSpin false rest).map
              (fun tr => BeginEv.rdO true :: BeginEv.clr :: tr) := rfl
        rw [hred] at h
        cases hrec : onBeginSpin false rest with
        | none => rw [hrec] at h; simp at h
        | some tr2 =>
          rw [hrec] at h
          simp only [Option.map_some', Option.some.injEq] at h
          subst h
          obtain ⟨tr0, h2⟩ := (ih false tr2 hrec).2 rfl
          subst h2
          refine ⟨fun _ => Or.inr ⟨BeginEv.rdO true :: BeginEv.clr :: tr0, rfl⟩,
            fun hx => nomatch hx⟩
      | false =>
        have hred : onBeginSpin true (false :: rest) =
            some [BeginEv.rdO false] := rfl
        rw [hred] at h
        simp only [Option.some.injEq] at h
        subst h
        exact ⟨fun _ => Or.inl rfl, fun hx => nomatch hx⟩
    | false =>
      cases b with
      | true =>
        have hred : onBeginSpin false (true :: rest) =
            (onBeginSpin false rest).map (fun tr => BeginEv.rdI true :: tr) := rfl
        rw [hred] at h
        cases hrec : onBeginSpin false rest with
        | none => rw [hrec] at h; simp at h
        | some tr2 =>
          rw [hrec] at h
          simp only [Option.map_some', Option.some.injEq] at h
          subst h
          obtain ⟨tr0, h2⟩ := (ih false tr2 hrec).2 rfl
          subst h2
          exact ⟨fun hx => (Bool.false_ne_true hx).elim,
            fun _ => ⟨BeginEv.rdI true :: tr0, rfl⟩⟩
      | false =>
        have hred : onBeginSpin false (false :: rest) =
            (onBeginSpin true rest).map
              (fun tr => BeginEv.rdI false :: BeginEv.pub :: tr) := rfl
        rw [hred] at h
        cases hrec : onBeginSpin true rest with
        | none => rw [hrec] at h; simp at h
        | some tr2 =>
          rw [hrec] at h
          simp only [Option.map_some', Option.some.injEq] at h
          subst h
          rcases (ih true tr2 hrec).1 rfl with h2 | ⟨tr0, h2⟩
          · subst h2
            exact ⟨fun hx => (Bool.false_ne_true hx).elim,
              fun _ => ⟨[BeginEv.rdI false], rfl⟩⟩
          · subst h2
            exact ⟨fun hx => (Bool.false_ne_true hx).elim,
              fun _ => ⟨BeginEv.rdI false :: BeginEv.pub :: tr0, rfl⟩⟩

theorem onBeginSpin_rdO_clr (obs : List Bool) :
    ∀ (mode : Bool) (tr : List BeginEv), onBeginSpin mode obs = some tr →
      ∀ i, tr[i]? = some (BeginEv.rdO true) → tr[i + 1]? = some BeginEv.clr := by
  induction obs with
  | nil => intro mode tr h; simp [onBeginSpin] at h
  | cons b rest ih =>
    intro mode tr h
    cases mode with
    | true =>
      cases b with
      | true =>
        have hred : onBeginSpin true (true :: rest) =
            (onBeginSpin false rest).map
              (fun tr => BeginEv.rdO true :: BeginEv.clr :: tr) := rfl
        rw [hred] at h
        cases hrec : onBeginSpin false rest with
        | none => rw [hrec] at h; simp at h
        | some tr2 =>
          rw [hrec] at h
          simp only [Option.map_some', Option.some.injEq] at h
          subst h
          intro i hi
          match i with
          | 0 => simp
          | 1 => simp at hi
          | Nat.succ (Nat.succ m) =>
            rw [List.getElem?_cons_succ, List.getElem?_cons_succ] at hi
            rw [List.getElem?_cons_succ, List.getElem?_cons_succ]
            exact ih false tr2 hrec m hi
      | false =>
        have hred : onBeginSpin true (false :: rest) =
            some [BeginEv.rdO false] := rfl
        rw [hred] at h
        simp only [Option.some.injEq] at h
        subst h
        intro i hi
        match i with
        | 0 => simp at hi
        | Nat.succ m => rw [List.getElem?_cons_succ] at hi; simp at hi
    | false =>
      cases b with
      | true =>
        have hred : onBeginSpin false (true :: rest) =
            (onBeginSpin false rest).map (fun tr => BeginEv.rdI true :: tr) := rfl
        rw [hred] at h
        cases hrec : onBeginSpin false rest with
        | none => rw [hrec] at h; simp at h
        | some tr2 =>
          rw [hrec] at h
          simp only [Option.map_some', Option.some.injEq] at h
          subst h
          intro i hi
          match i with
          | 0 => simp at hi
          | Nat.succ m =>
            rw [List.getElem?_cons_succ] at hi
            rw [List.getElem?_cons_succ]
            exact ih false tr2 hrec m hi
      | false =>
        have hred : onBeginSpin false (false :: rest) =
            (onBeginSpin true rest).map
              (fun tr => BeginEv.rdI false :: BeginEv.pub :: tr) := rfl
        rw [hred] at h
        cases hrec : onBeginSpin true rest with
        | none => rw [hrec] at h; simp at h
        | some tr2 =>
          rw [hrec] at h
          simp only [Option.map_some', Option.some.injEq] at h
          subst h
          intro i hi
          match i with
          | 0 => simp at hi
          | 1 => simp at hi
          | Nat.succ (Nat.succ m) =>
            rw [List.getElem?_cons_succ, List.getElem?_cons_succ] at hi
            rw [List.getElem?_cons_succ, List.getElem?_cons_succ]
            exact ih true tr2 hrec m hi

theorem onBeginSpin_rdI_slot (t : Nat) (obs : List Bool) :
    ∀ (mode : Bool) (tr : List BeginEv), onBeginSpin mode obs = some tr →
      ∀ (s0 : Nat), (mode = false → s0 = IDLE) →
      ∀ i b, tr[i]? = some (BeginEv.rdI b) →
        slotAfter t (tr.take i) s0 = IDLE := by
  induction obs with
  | nil => intro mode tr h; simp [onBeginSpin] at h
  | cons b rest ih =>
    intro mode tr h
    cases mode with
    | true =>
      cases b with
      | true =>
        have hred : onBeginSpin true (true :: rest) =
            (onBeginSpin false rest).map
              (fun tr => BeginEv.rdO true :: BeginEv.clr :: tr) := rfl
        rw [hred] at h
        cases hrec : onBeginSpin false rest with
        | none => rw [hrec] at h; simp at h
        | some tr2 =>
          rw [hrec] at h
          simp only [Option.map_some', Option.some.injEq] at h
          subst h
          intro s0 hm i bb hi
          match i with
          | 0 => simp at hi
          | 1 => simp at hi
          | Nat.succ (Nat.succ m) =>
            rw [List.getElem?_cons_succ, List.getElem?_cons_succ] at hi
            rw [List.take_succ_cons, List.take_succ_cons]
            show slotAfter t (tr2.take m) IDLE = IDLE
            exact ih false tr2 hrec IDLE (fun _ => rfl) m bb hi
      | false =>
        have hred : onBeginSpin true (false :: rest) =
            some [BeginEv.rdO false] := rfl
        rw [hred] at h
        simp only [Option.some.injEq] at h
        subst h
        intro s0 hm i bb hi
        match i with
        | 0 => simp at hi
        | Nat.succ m => rw [List.getElem?_cons_succ] at hi; simp at hi
    | false =>
      cases b with
      | true =>
        have hred : onBeginSpin false (true :: rest) =
            (onBeginSpin false rest).map (fun tr => BeginEv.rdI true :: tr) := rfl
        rw [hred] at h
        cases hrec : onBeginSpin false rest with
        | none => rw [hrec] at h; simp at h
        | some tr2 =>
          rw [hrec] at h
          simp only [Option.map_some', Option.some.injEq] at h
          subst h
          intro s0 hm i bb hi
          have hs0 : s0 = IDLE := hm rfl
          subst hs0
          match i with
          | 0 => rfl
          | Nat.succ m =>
            rw [List.getElem?_cons_succ] at hi
            rw [List.take_succ_cons]
            show slotAfter t (tr2.take m) IDLE = IDLE
            exact ih false tr2 hrec IDLE (fun _ => rfl) m bb hi
      | false =>
        have hred : onBeginSpin false (false :: rest) =
            (onBeginSpin true rest).map
              (fun tr => BeginEv.rdI false :: BeginEv.pub :: tr) := rfl
        rw [hred] at h
        cases hrec : onBeginSpin true rest with
        | none => rw [hrec] at h; simp at h
        | some tr2 =>
          rw [hrec] at h
          simp only [Option.map_some', Option.some.injEq] at h
          subst h
          intro s0 hm i bb hi
          have hs0 : s0 = IDLE := hm rfl
          subst hs0
          match i with
          | 0 => rfl
          | 1 => simp at hi
          | Nat.succ (Nat.succ m) =>
            rw [List.getElem?_cons_succ, List.getElem?_cons_succ] at hi
            rw [List.take_succ_cons, List.take_succ_cons]
            show slotAfter t (tr2.take m) t = IDLE
            exact ih true tr2 hrec t (fun hx => nomatch hx) m bb hi

/-- Claim C3: `onBegin(time)` never lets a thread proceed into a step while
the irrevocability token is held: it returns only after publishing `time`
to the caller's epoch slot and then observing the token clear (the slot
holds `time` at that final observation); every observation of a held token
at the post-publish check is immediately followed by resetting the
caller's slot to idle; and at every read of the token inside the inner
spin the caller's slot is idle. -/
theorem onBegin_blocks_while_token_held (t : Nat) (obs : List Bool)
    (tr : List BeginEv) (h : onBeginRun obs = some tr) :
    (∃ tr0, tr = tr0 ++ [BeginEv.pub, BeginEv.rdO false] ∧
       ∀ s0, slotAfter t (tr0 ++ [BeginEv.pub]) s0 = t) ∧
    (∀ i, tr[i]? = some (BeginEv.rdO true) → tr[i + 1]? = some BeginEv.clr) ∧
    (∀ i b s0, tr[i]? = some (BeginEv.rdI b) →
       slotAfter t (tr.take i) s0 = IDLE) := by
  cases hs : onBeginSpin true obs with
  | none => rw [onBeginRun, hs] at h; simp at h
  | some trS =>
    rw [onBeginRun, hs] at h
    simp only [Option.map_some', Option.some.injEq] at h
    subst h
    refine ⟨?_, ?_, ?_⟩
    · rcases (onBeginSpin_ends obs true trS hs).1 rfl with h2 | ⟨tr0, h2⟩
      · subst h2
        exact ⟨[], rfl, fun s0 => rfl⟩
      · subst h2
        refine ⟨BeginEv.pub :: tr0, rfl, fun s0 => ?_⟩
        rw [show BeginEv.pub :: tr0 ++ [BeginEv.pub] =
          (BeginEv.pub :: tr0) ++ [BeginEv.pub] from rfl, slotAfter_append]
        rfl
    · intro i hi
      match i with
      | 0 => simp at hi
      | Nat.succ m =>
        rw [List.getElem?_cons_succ] at hi
        rw [List.getElem?_cons_succ]
        exact onBeginSpin_rdO_clr obs true trS hs m hi
    · intro i bb s0 hi
      match i with
      | 0 => simp at hi
      | Nat.succ m =>
        rw [List.getElem?_cons_succ] at hi
        rw [List.take_succ_cons]
        show slotAfter t (trS.take m) t = IDLE
        exact onBeginSpin_rdI_slot t obs true trS hs t (fun hx => nomatch hx) m bb hi

/-- Witness for C3: the token is seen held once, the thread parks itself idle,
spins, republishes and proceeds when the token clears. -/
theorem onBegin_blocks_while_token_held_witness :
    ([BeginEv.pub, BeginEv.rdO true, BeginEv.clr, BeginEv.rdI true,
      BeginEv.rdI false, BeginEv.pub, BeginEv.rdO false] : List BeginEv)[2]? =
      some BeginEv.clr :=
  (onBegin_blocks_while_token_held 7 [true, true, false, false]
    [BeginEv.pub, BeginEv.rdO true, BeginEv.clr, BeginEv.rdI true,
      BeginEv.rdI false, BeginEv.pub, BeginEv.rdO false] rfl).2.1 1 rfl

/-! The slist_omap traversal (claims C9 and C10). -/

theorem lt_of_not_tooBig (lt : Bool) (key k : Nat)
    (h : tooBig lt key k = false) (hne : k ≠ key) : k < key := by
  cases lt <;> simp [tooBig] at h <;> omega

theorem lt_false_of_not_tooBig_self (lt : Bool) (key : Nat)
    (h : tooBig lt key key = false) : lt = false := by
  cases lt
  · rfl
  · simp [tooBig] at h

theorem key_lt_of_tooBig_leq (key k : Nat)
    (h : tooBig false key k = true) : key < k := by
  simpa [tooBig] using h

theorem getD_eq_getElem {α : Type} (l : List α) (i : Nat) (d : α)
    (h : i < l.length) : l.getD i d = l[i] := by
  induction l generalizing i with
  | nil => simp at h
  | cons a t ih =>
    cases i with
    | zero => rfl
    | succ m => simpa using ih m (by simpa using h)

theorem keyAt_le_keyAt (mem : List (Nat × Nat))
    (hsort : List.Pairwise (fun a b => a < b) (mem.map Prod.fst))
    (p q : Nat) (h1 : 1 ≤ p) (h2 : p ≤ q) (h3 : q ≤ mem.length) :
    keyAt mem p ≤ keyAt mem q := by
  rcases Nat.eq_or_lt_of_le h2 with he | hlt
  · rw [he]
  · have hp : p - 1 < mem.length := by omega
    have hq : q - 1 < mem.length := by omega
    have hp2 : p - 1 < (mem.map Prod.fst).length := by simpa using hp
    have hq2 : q - 1 < (mem.map Prod.fst).length := by simpa using hq
    have hr := List.pairwise_iff_getElem.mp hsort (p - 1) (q - 1) hp2 hq2 (by omega)
    have e1 : keyAt mem p = (mem.map Prod.fst)[p - 1] := by
      rw [keyAt, getD_eq_getElem mem (p - 1) (0, 0) hp, List.getElem_map]
    have e2 : keyAt mem q = (mem.map Prod.fst)[q - 1] := by
      rw [keyAt, getD_eq_getElem mem (q - 1) (0, 0) hq, List.getElem_map]
    rw [e1, e2]
    exact Nat.le_of_lt hr

theorem key_mem_iff (mem : List (Nat × Nat)) (key : Nat) :
    key ∈ mem.map Prod.fst ↔
      ∃ j, 1 ≤ j ∧ j ≤ mem.length ∧ keyAt mem j = key := by
  rw [List.mem_iff_getElem]
  constructor
  · rintro ⟨i, hi, he⟩
    have hi2 : i < mem.length := by simpa using hi
    refine ⟨i + 1, by omega, by omega, ?_⟩
    rw [keyAt]
    simp only [Nat.add_sub_cancel]
    rw [getD_eq_getElem mem i (0, 0) hi2]
    rw [List.getElem_map] at he
    exact he
  · rintro ⟨j, hj1, hj2, hk⟩
    have hj3 : j - 1 < mem.length := by omega
    have hj4 : j - 1 < (mem.map Prod.fst).length := by simpa using hj3
    refine ⟨j - 1, hj4, ?_⟩
    rw [List.getElem_map]
    rw [keyAt, getD_eq_getElem mem (j - 1) (0, 0) hj3] at hk
    exact hk

theorem getLeqLoop_sound (mem : List (Nat × Nat)) (ck : Nat → Option Nat)
    (avoid lt : Bool) (key freq : Nat) :
    ∀ (fuel curr currVer cnt : Nat) (checks : List (Nat × Nat)) (r : LeqRes),
      (curr = 0 ∨ (1 ≤ curr ∧ curr ≤ mem.length ∧ keyAt mem curr < key)) →
      (avoid = false → (curr, currVer) ∈ checks) →
      getLeqLoop mem ck avoid lt key freq fuel curr currVer cnt checks = some r →
      (r.pos = 0 ∨ (1 ≤ r.pos ∧ r.pos ≤ mem.length ∧
         (if lt = true then keyAt mem r.pos < key else keyAt mem r.pos ≤ key))) ∧
      (r.pos, r.ver) ∈ r.checks := by
  intro fuel
  induction fuel with
  | zero =>
    intro curr currVer cnt checks r hinv hmem h
    simp [getLeqLoop] at h
  | succ f ih =>
    intro curr currVer cnt checks r hinv hmem h
    have htp : tailPos mem = mem.length + 1 := rfl
    have hcl : curr ≤ mem.length := by
      rcases hinv with h0 | ⟨_, hb, _⟩
      · omega
      · exact hb
    have hret : ∀ v : Nat,
        (r.pos = curr ∧ r.ver = v ∧ (curr, v) ∈ r.checks) →
        (r.pos = 0 ∨ (1 ≤ r.pos ∧ r.pos ≤ mem.length ∧
           (if lt = true then keyAt mem r.pos < key else keyAt mem r.pos ≤ key))) ∧
        (r.pos, r.ver) ∈ r.checks := by
      intro v ⟨hp, hv, hc⟩
      constructor
      · rcases hinv with h0 | ⟨ha, hb, hc2⟩
        · exact Or.inl (hp.trans h0)
        · rw [hp]
          refine Or.inr ⟨ha, hb, ?_⟩
          cases lt
          · simpa using Nat.le_of_lt hc2
          · simpa using hc2
      · rw [hp, hv]; exact hc
    simp only [getLeqLoop] at h
    cases avoid with
    | true =>
      rw [if_pos rfl] at h
      by_cases h1 : curr + 1 = tailPos mem
      · rw [if_pos h1] at h
        cases hck : ck curr with
        | none => rw [hck] at h; simp at h
        | some cv =>
          rw [hck] at h
          simp only [Option.some.injEq] at h
          subst h
          exact hret cv ⟨rfl, rfl, by simp⟩
      · rw [if_neg h1] at h
        by_cases h2 : tooBig lt key (keyAt mem (curr + 1)) = true
        · rw [if_pos h2] at h
          cases hck : ck curr with
          | none => rw [hck] at h; simp at h
          | some cv =>
            rw [hck] at h
            simp only [Option.some.injEq] at h
            subst h
            exact hret cv ⟨rfl, rfl, by simp⟩
        · replace h2 : tooBig lt key (keyAt mem (curr + 1)) = false := by
            cases hx : tooBig lt key (keyAt mem (curr + 1))
            · rfl
            · exact absurd hx h2
          rw [if_neg (by rw [h2]; exact Bool.false_ne_true)] at h
          by_cases h3 : keyAt mem (curr + 1) = key
          · rw [if_pos h3] at h
            cases hck : ck (curr + 1) with
            | none => rw [hck] at h; simp at h
            | some nv =>
              rw [hck] at h
              simp only [Option.some.injEq] at h
              subst h
              have hlt : lt = false := lt_false_of_not_tooBig_self lt key (h3 ▸ h2)
              subst hlt
              refine ⟨Or.inr ⟨?_, ?_, ?_⟩, by simp⟩
              · show 1 ≤ curr + 1
                omega
              · show curr + 1 ≤ mem.length
                omega
              · simpa using Nat.le_of_eq h3
          · rw [if_neg h3] at h
            have hnext : curr + 1 ≤ mem.length ∧ keyAt mem (curr + 1) < key :=
              ⟨by omega, lt_of_not_tooBig lt key (keyAt mem (curr + 1)) h2 h3⟩
            by_cases h4 : cnt - 1 = 0
            · rw [if_pos h4] at h
              cases hck : ck curr with
              | none =>
                rw [hck] at h
                exact ih (curr + 1) END_OF_TIME freq checks r
                  (Or.inr ⟨by omega, hnext.1, hnext.2⟩)
                  (fun hx => nomatch hx) h
              | some cv =>
                rw [hck] at h
                exact ih (curr + 1) cv freq checks r
                  (Or.inr ⟨by omega, hnext.1, hnext.2⟩)
                  (fun hx => nomatch hx) h
            · rw [if_neg h4] at h
              exact ih (curr + 1) currVer (cnt - 1) checks r
                (Or.inr ⟨by omega, hnext.1, hnext.2⟩)
                (fun hx => nomatch hx) h
    | false =>
      rw [if_neg Bool.false_ne_true] at h
      split at h
      · simp at h
      · rename_i nv hck
        by_cases h1 : curr + 1 = tailPos mem
        · rw [if_pos h1] at h
          simp only [Option.some.injEq] at h
          subst h
          exact hret currVer ⟨rfl, rfl, List.mem_append_left _ (hmem rfl)⟩
        · rw [if_neg h1] at h
          by_cases h2 : tooBig lt key (keyAt mem (curr + 1)) = true
          · rw [if_pos h2] at h
            simp only [Option.some.injEq] at h
            subst h
            exact hret currVer ⟨rfl, rfl, List.mem_append_left _ (hmem rfl)⟩
          · replace h2 : tooBig lt key (keyAt mem (curr + 1)) = false := by
              cases hx : tooBig lt key (keyAt mem (curr + 1))
              · rfl
              · exact absurd hx h2
            rw [if_neg (by rw [h2]; exact Bool.false_ne_true)] at h
            by_cases h3 : keyAt mem (curr + 1) = key
            · rw [if_pos h3] at h
              simp only [Option.some.injEq] at h
              subst h
              have hlt : lt = false := lt_false_of_not_tooBig_self lt key (h3 ▸ h2)
              subst hlt
              refine ⟨Or.inr ⟨?_, ?_, ?_⟩, by simp⟩
              · show 1 ≤ curr + 1
                omega
              · show curr + 1 ≤ mem.length
                omega
              · simpa using Nat.le_of_eq h3
            · rw [if_neg h3] at h
              have hnext : curr + 1 ≤ mem.length ∧ keyAt mem (curr + 1) < key :=
                ⟨by omega, lt_of_not_tooBig lt key (keyAt mem (curr + 1)) h2 h3⟩
              by_cases h4 : cnt - 1 = 0
              · rw [if_pos h4] at h
                exact ih (curr + 1) nv freq (checks ++ [(curr + 1, nv)]) r
                  (Or.inr ⟨by omega, hnext.1, hnext.2⟩)
                  (fun _ => List.mem_append_right _ (by simp)) h
              · rw [if_neg h4] at h
                exact ih (curr + 1) nv (cnt - 1) (checks ++ [(curr + 1, nv)]) r
                  (Or.inr ⟨by omega, hnext.1, hnext.2⟩)
                  (fun _ => List.mem_append_right _ (by simp)) h

theorem getLeqAttempt_sound (mem : List (Nat × Nat)) (ck : Nat → Option Nat)
    (avoid lt : Bool) (key freq sp sv : Nat) (r : LeqRes)
    (hstart : sp = 0 ∨ (1 ≤ sp ∧ sp ≤ mem.length ∧ keyAt mem sp < key))
    (h : getLeqAttempt mem ck avoid lt key freq sp sv = some r) :
    (r.pos = 0 ∨ (1 ≤ r.pos ∧ r.pos ≤ mem.length ∧
       (if lt = true then keyAt mem r.pos < key else keyAt mem r.pos ≤ key))) ∧
    (r.pos, r.ver) ∈ r.checks := by
  unfold getLeqAttempt at h
  by_cases hsp : sp = 0
  · rw [if_pos hsp] at h
    cases hck : ck 0 with
    | none => rw [hck] at h; simp at h
    | some hv =>
      rw [hck] at h
      exact getLeqLoop_sound mem ck avoid lt key freq (mem.length + 2) 0 hv freq
        [(0, hv)] r (Or.inl rfl) (fun _ => by simp) h
  · rw [if_neg hsp] at h
    by_cases hcv : ck sp = some sv
    · rw [if_pos hcv] at h
      exact getLeqLoop_sound mem ck avoid lt key freq (mem.length + 2) sp sv freq
        [(sp, sv)] r
        (by
          rcases hstart with h0 | hs
          · exact absurd h0 hsp
          · exact Or.inr hs)
        (fun _ => by simp) h
    · rw [if_neg hcv] at h
      simp at h

/-- Claim C9: for every key and both modes, `get_leq(me, key, lt_mode)`
returns either the head sentinel or a data node whose key `k` satisfies
`k ≤ key` (`k < key` when `lt_mode` is true), never the tail sentinel; and
the returned (node, version) pair was validated by a successful
`check_orec` or `check_continuation` inside the read step that returned it
(it appears among that step's recorded successful validations) — in both
the `AVOID_OREC_CHECKS` and the checking configuration. -/
theorem get_leq_postcondition (mem : List (Nat × Nat)) (ck : Nat → Option Nat)
    (avoid lt : Bool) (key freq sp sv : Nat) (r : LeqRes)
    (hstart : sp = 0 ∨ (1 ≤ sp ∧ sp ≤ mem.length ∧ keyAt mem sp < key))
    (h : getLeqAttempt mem ck avoid lt key freq sp sv = some r) :
    r.pos ≠ tailPos mem ∧
    (r.pos = 0 ∨ (1 ≤ r.pos ∧ r.pos ≤ mem.length ∧
       (if lt = true then keyAt mem r.pos < key else keyAt mem r.pos ≤ key))) ∧
    (r.pos, r.ver) ∈ r.checks := by
  obtain ⟨hA, hB⟩ := getLeqAttempt_sound mem ck avoid lt key freq sp sv r hstart h
  have htp : tailPos mem = mem.length + 1 := rfl
  refine ⟨?_, hA, hB⟩
  rcases hA with h0 | ⟨_, hb, _⟩ <;> omega

/-- Witness for C9: searching key 20 in the two-node list `[(10, 100),
(20, 200)]` from the head returns the matching data node at position 2,
with its validated version. -/
theorem get_leq_postcondition_witness :
    ((⟨2, 2, [(0, 0), (1, 1), (2, 2)]⟩ : LeqRes).pos ≠
        tailPos [(10, 100), (20, 200)] ∧
      ((⟨2, 2, [(0, 0), (1, 1), (2, 2)]⟩ : LeqRes).pos = 0 ∨
        (1 ≤ (⟨2, 2, [(0, 0), (1, 1), (2, 2)]⟩ : LeqRes).pos ∧
          (⟨2, 2, [(0, 0), (1, 1), (2, 2)]⟩ : LeqRes).pos ≤
            (([(10, 100), (20, 200)] : List (Nat × Nat))).length ∧
          (if false = true then
            keyAt [(10, 100), (20, 200)] (⟨2, 2, [(0, 0), (1, 1), (2, 2)]⟩ : LeqRes).pos < 20
          else
            keyAt [(10, 100), (20, 200)] (⟨2, 2, [(0, 0), (1, 1), (2, 2)]⟩ : LeqRes).pos ≤ 20))) ∧
      ((⟨2, 2, [(0, 0), (1, 1), (2, 2)]⟩ : LeqRes).pos,
        (⟨2, 2, [(0, 0), (1, 1), (2, 2)]⟩ : LeqRes).ver) ∈
        (⟨2, 2, [(0, 0), (1, 1), (2, 2)]⟩ : LeqRes).checks) :=
  get_leq_postcondition [(10, 100), (20, 200)] (fun p => some p) false false 20 2 0 0
    ⟨2, 2, [(0, 0), (1, 1), (2, 2)]⟩ (Or.inl rfl) rfl

theorem getLeqLoop_finds (mem : List (Nat × Nat)) (ck : Nat → Option Nat)
    (avoid : Bool) (key freq : Nat)
    (hsort : List.Pairwise (fun a b => a < b) (mem.map Prod.fst))
    (j : Nat) (hj1 : 1 ≤ j) (hj2 : j ≤ mem.length) (hjk : keyAt mem j = key) :
    ∀ (fuel curr currVer cnt : Nat) (checks : List (Nat × Nat)) (r : LeqRes),
      (curr = 0 ∨ (1 ≤ curr ∧ curr ≤ mem.length ∧ keyAt mem curr < key)) →
      getLeqLoop mem ck avoid false key freq fuel curr currVer cnt checks = some r →
      r.pos ≠ 0 ∧ keyAt mem r.pos = key := by
  intro fuel
  induction fuel with
  | zero =>
    intro curr currVer cnt checks r hinv h
    simp [getLeqLoop] at h
  | succ f ih =>
    intro curr currVer cnt checks r hinv h
    have htp : tailPos mem = mem.length + 1 := rfl
    have hcl : curr ≤ mem.length := by
      rcases hinv with h0 | ⟨_, hb, _⟩
      · omega
      · exact hb
    have hcurr_lt : curr < j := by
      rcases hinv with h0 | ⟨h1c, _, h3c⟩
      · omega
      · by_contra hge
        have := keyAt_le_keyAt mem hsort j curr hj1 (by omega) hcl
        omega
    -- the "stop" branches are impossible while curr < j, except the match
    have hnotail : curr + 1 ≠ tailPos mem := by omega
    have hnotbig : tooBig false key (keyAt mem (curr + 1)) ≠ true := by
      intro hbig
      have hkl := key_lt_of_tooBig_leq key (keyAt mem (curr + 1)) hbig
      have := keyAt_le_keyAt mem hsort (curr + 1) j (by omega) (by omega) hj2
      omega
    simp only [getLeqLoop] at h
    cases avoid with
    | true =>
      rw [if_pos rfl] at h
      rw [if_neg hnotail] at h
      rw [if_neg hnotbig] at h
      by_cases h3 : keyAt mem (curr + 1) = key
      · rw [if_pos h3] at h
        cases hck : ck (curr + 1) with
        | none => rw [hck] at h; simp at h
        | some nv =>
          rw [hck] at h
          simp only [Option.some.injEq] at h
          subst h
          exact ⟨by simp, h3⟩
      · rw [if_neg h3] at h
        have hnext : curr + 1 = 0 ∨ (1 ≤ curr + 1 ∧ curr + 1 ≤ mem.length ∧
            keyAt mem (curr + 1) < key) := by
          refine Or.inr ⟨by omega, by omega, ?_⟩
          exact lt_of_not_tooBig false key (keyAt mem (curr + 1))
            (by
              cases hx : tooBig false key (keyAt mem (curr + 1))
              · rfl
              · exact absurd hx hnotbig) h3
        by_cases h4 : cnt - 1 = 0
        · rw [if_pos h4] at h
          cases hck : ck curr with
          | none =>
            rw [hck] at h
            exact ih (curr + 1) END_OF_TIME freq checks r hnext h
          | some cv =>
            rw [hck] at h
            exact ih (curr + 1) cv freq checks r hnext h
        · rw [if_neg h4] at h
          exact ih (curr + 1) currVer (cnt - 1) checks r hnext h
    | false =>
      rw [if_neg Bool.false_ne_true] at h
      split at h
      · simp at h
      · rename_i nv hck
        rw [if_neg hnotail] at h
        rw [if_neg hnotbig] at h
        by_cases h3 : keyAt mem (curr + 1) = key
        · rw [if_pos h3] at h
          simp only [Option.some.injEq] at h
          subst h
          exact ⟨by simp, h3⟩
        · rw [if_neg h3] at h
          have hnext : curr + 1 = 0 ∨ (1 ≤ curr + 1 ∧ curr + 1 ≤ mem.length ∧
              keyAt mem (curr + 1) < key) := by
            refine Or.inr ⟨by omega, by omega, ?_⟩
            exact lt_of_not_tooBig false key (keyAt mem (curr + 1))
              (by
                cases hx : tooBig false key (keyAt mem (curr + 1))
                · rfl
                · exact absurd hx hnotbig) h3
          by_cases h4 : cnt - 1 = 0
          · rw [if_pos h4] at h
            exact ih (curr + 1) nv freq (checks ++ [(curr + 1, nv)]) r hnext h
          · rw [if_neg h4] at h
            exact ih (curr + 1) nv (cnt - 1) (checks ++ [(curr + 1, nv)]) r hnext h

theorem getLeqAttempt_finds (mem : List (Nat × Nat)) (ck : Nat → Option Nat)
    (avoid : Bool) (key freq sp sv : Nat) (r : LeqRes)
    (hsort : List.Pairwise (fun a b => a < b) (mem.map Prod.fst))
    (hpresent : key ∈ mem.map Prod.fst)
    (hstart : sp = 0 ∨ (1 ≤ sp ∧ sp ≤ mem.length ∧ keyAt mem sp < key))
    (h : getLeqAttempt mem ck avoid false key freq sp sv = some r) :
    r.pos ≠ 0 ∧ keyAt mem r.pos = key := by
  obtain ⟨j, hj1, hj2, hjk⟩ := (key_mem_iff mem key).mp hpresent
  unfold getLeqAttempt at h
  by_cases hsp : sp = 0
  · rw [if_pos hsp] at h
    cases hck : ck 0 with
    | none => rw [hck] at h; simp at h
    | some hv =>
      rw [hck] at h
      exact getLeqLoop_finds mem ck avoid key freq hsort j hj1 hj2 hjk
        (mem.length + 2) 0 hv freq [(0, hv)] r (Or.inl rfl) h
  · rw [if_neg hsp] at h
    by_cases hcv : ck sp = some sv
    · rw [if_pos hcv] at h
      exact getLeqLoop_finds mem ck avoid key freq hsort j hj1 hj2 hjk
        (mem.length + 2) sp sv freq [(sp, sv)] r
        (by
          rcases hstart with h0 | hs
          · exact absurd h0 hsp
          · exact Or.inr hs) h
    · rw [if_neg hcv] at h
      simp at h

/-- Claim C10: `slist_omap::insert(me, key, val)` has no upsert behavior.
Whenever a node with an equal key is already present (in a sorted list, the
structure's invariant), a completed iteration returns false and leaves the
list structurally unchanged — the existing value is never overwritten and
no node is linked in; and it links in exactly one new node holding
`(key, val)` and returns true only when no equal key is found. -/
theorem insert_no_upsert (mem : List (Nat × Nat)) (ck : Nat → Option Nat)
    (acq : Nat → Nat → Bool) (avoid : Bool) (key val freq sp sv : Nat)
    (hsort : List.Pairwise (fun a b => a < b) (mem.map Prod.fst))
    (hstart : sp = 0 ∨ (1 ≤ sp ∧ sp ≤ mem.length ∧ keyAt mem sp < key)) :
    ∀ b m2, insertStep mem ck acq avoid key val freq sp sv = InsOut.done b m2 →
      (key ∈ mem.map Prod.fst → b = false ∧ m2 = mem) ∧
      (b = false → key ∈ mem.map Prod.fst ∧ m2 = mem) ∧
      (b = true → key ∉ mem.map Prod.fst ∧
        ∃ p, p ≤ mem.length ∧ m2 = mem.take p ++ [(key, val)] ++ mem.drop p ∧
          m2.length = mem.length + 1) := by
  intro b m2 h
  unfold insertStep at h
  split at h
  · rename_i hA
    simp at h
  · rename_i n hA
    by_cases hfound : n.pos ≠ 0 ∧ keyAt mem n.pos = key
    · rw [if_pos hfound] at h
      have hbm : false = b ∧ mem = m2 := by simpa [InsOut.done.injEq] using h
      obtain ⟨hb1, hb2⟩ := hbm
      subst hb1
      subst hb2
      have hkey : key ∈ mem.map Prod.fst := by
        obtain ⟨hpos, _⟩ :=
          getLeqAttempt_sound mem ck avoid false key freq sp sv n hstart hA
        rcases hpos with h0 | ⟨h1, h2, _⟩
        · exact absurd h0 hfound.1
        · exact (key_mem_iff mem key).mpr ⟨n.pos, h1, h2, hfound.2⟩
      exact ⟨fun _ => ⟨rfl, rfl⟩, fun _ => ⟨hkey, rfl⟩,
        fun ht => (Bool.false_ne_true ht).elim⟩
    · rw [if_neg hfound] at h
      by_cases hacq : acq n.pos n.ver = true
      · rw [if_pos hacq] at h
        have hbm : true = b ∧
            mem.take n.pos ++ [(key, val)] ++ mem.drop n.pos = m2 := by
          simpa [InsOut.done.injEq] using h
        obtain ⟨hb1, hb2⟩ := hbm
        subst hb1
        subst hb2
        have hnot : key ∉ mem.map Prod.fst := by
          intro hmem2
          exact hfound
            (getLeqAttempt_finds mem ck avoid key freq sp sv n hsort hmem2 hstart hA)
        have hple : n.pos ≤ mem.length := by
          obtain ⟨hpos, _⟩ :=
            getLeqAttempt_sound mem ck avoid false key freq sp sv n hstart hA
          rcases hpos with h0 | ⟨_, hb2c, _⟩
          · omega
          · exact hb2c
        refine ⟨fun hk => absurd hk hnot, fun hbf => (Bool.noConfusion hbf),
          fun _ => ⟨hnot, n.pos, hple, rfl, ?_⟩⟩
        simp only [List.length_append, List.length_take, List.length_drop,
          List.length_cons, List.length_nil]
        omega
      · rw [if_neg (by rw [show acq n.pos n.ver = false by
          cases hx : acq n.pos n.ver
          · rfl
          · exact absurd hx hacq]; exact Bool.false_ne_true)] at h
        simp at h

/-- Witness for C10: inserting absent key 20 into the sorted list
`[(10, 100), (30, 300)]` links in exactly one new node. -/
theorem insert_no_upsert_witness :
    (20 : Nat) ∉ ([(10, 100), (30, 300)] : List (Nat × Nat)).map Prod.fst ∧
    ∃ p, p ≤ ([(10, 100), (30, 300)] : List (Nat × Nat)).length ∧
      ([(10, 100), (20, 999), (30, 300)] : List (Nat × Nat)) =
        ([(10, 100), (30, 300)] : List (Nat × Nat)).take p ++ [(20, 999)] ++
          ([(10, 100), (30, 300)] : List (Nat × Nat)).drop p ∧
      ([(10, 100), (20, 999), (30, 300)] : List (Nat × Nat)).length =
        ([(10, 100), (30, 300)] : List (Nat × Nat)).length + 1 :=
  (insert_no_upsert [(10, 100), (30, 300)] (fun p => some p) (fun _ _ => true)
    false 20 999 3 0 0 (by decide) (Or.inl rfl) true
    [(10, 100), (20, 999), (30, 300)] rfl).2.2 rfl
